import Mathlib

/-!
Verification development for the mapgenctl live log aggregation engine
(tools/mapgenctl/tui/{model,merger,tailer}.py, tools/mapgenctl/cli.py,
tools/mapgenctl/utils/paths.py).

The Python code is shallowly embedded: dataclasses become structures,
methods become pure functions with explicit state passing, monotonic
clock reads become an explicit `now` argument, and operations that can
raise a Python exception return `Except`.  Python floats (monotonic
times and delay bounds) enter the claims only through subtraction and
order comparisons, so they are modelled as integers; byte strings are
modelled as `String` with the identity decoding (the code decodes with
errors="replace", which is the identity on well-formed text).
-/

namespace MapGenCtl

/-- The `raw` payload of a LogEntry (`Any` in model.py): either the
plain-text tail's single-field object holding the original line
(tailer.py builds the line object for PlainTextTail entries), or some
other payload (e.g. a parsed JSON object) whose contents none of the
verified components inspect. -/
inductive RawVal where
  | ofLine (line : String)
  | other
deriving DecidableEq, Repr

/-- model.py `LogEntry` dataclass: one normalized log line.
`timestamp`/`level`/`event`/`message` are `Optional[str]`;
`arrival_time` is a monotonic float time, modelled as an integer;
`seq` is the per-tail sequence counter. -/
structure LogEntry where
  job_id : String
  stage : String
  timestamp : Option String
  level : Option String
  event : Option String
  message : Option String
  raw : RawVal
  arrival_time : ℤ
  seq : Nat
deriving DecidableEq, Repr

/-- Python truthiness of an `Optional[str]`: `None` and the empty
string are falsy.  Used because merger.py tests `entry.timestamp` and
computes `entry.timestamp or entry.arrival_time`. -/
def tsTruthy : Option String → Bool
  | some t => decide (t ≠ "")
  | none => false

/-- The dynamic type of the heap key produced by
`key = entry.timestamp or entry.arrival_time` in EventMerger.ingest:
a Python `str` (the explicit timestamp) or a float (the arrival
time). -/
inductive PyKey where
  | str (s : String)
  | num (x : ℤ)
deriving DecidableEq, Repr

/-- The ordering key computed by EventMerger.ingest:
`entry.timestamp or entry.arrival_time` (Python `or`, so an empty
string timestamp also falls back to the arrival time). -/
def orderingKey (e : LogEntry) : PyKey :=
  match e.timestamp with
  | some t => if t = "" then .num e.arrival_time else .str t
  | none => .num e.arrival_time

/-- Lexicographic code-point comparison of character lists: Python's
`str` comparison.  (Structurally recursive so that concrete witness
states evaluate inside the kernel; `strLt_iff` below identifies it
with Lean's `String` order.) -/
def charListLt : List Char → List Char → Bool
  | [], [] => false
  | [], _ :: _ => true
  | _ :: _, [] => false
  | a :: as, b :: bs =>
    if a < b then true else if b < a then false else charListLt as bs

/-- Python `s < t` on strings: code-point lexicographic order. -/
def strLt (a b : String) : Bool := charListLt a.data b.data

/-- Python `<` on two dynamic key values: defined within one type,
a `TypeError` (modelled as `Except.error ()`) across types. -/
def pyKeyLt : PyKey → PyKey → Except Unit Bool
  | .str a, .str b => .ok (strLt a b)
  | .num a, .num b => .ok (decide (a < b))
  | _, _ => .error ()

/-- Python `==` on two dynamic key values: cross-type equality is
`False` (no exception). -/
def pyKeyEq : PyKey → PyKey → Bool
  | .str a, .str b => decide (a = b)
  | .num a, .num b => decide (a = b)
  | _, _ => false

/-- One element of EventMerger's heap: the tuple
`(key, self._seq, entry)` pushed by `ingest`.  `tag` is the value of
the merger's internal `_seq` counter at push time. -/
structure HeapElem where
  key : PyKey
  tag : Nat
  entry : LogEntry
deriving DecidableEq, Repr

/-- Python tuple comparison `(k1, t1, e1) < (k2, t2, e2)` as performed
by heapq: scan for the first position where the components are not
`==`, and apply `<` there.  Comparing a `str` key with a float key
raises TypeError; comparing two unequal `LogEntry` dataclasses (only
reached if both key and tag are equal) also raises, since the
dataclass does not define an order. -/
def elemLt (a b : HeapElem) : Except Unit Bool :=
  if pyKeyEq a.key b.key then
    if a.tag = b.tag then
      if a.entry = b.entry then .ok false else .error ()
    else .ok (decide (a.tag < b.tag))
  else pyKeyLt a.key b.key

instance {ε α : Type} [DecidableEq ε] [DecidableEq α] : DecidableEq (Except ε α) :=
  fun x y =>
  match x, y with
  | .ok a, .ok b =>
    if h : a = b then .isTrue (congrArg Except.ok h)
    else .isFalse fun hc => h (Except.ok.inj hc)
  | .error a, .error b =>
    if h : a = b then .isTrue (congrArg Except.error h)
    else .isFalse fun hc => h (Except.error.inj hc)
  | .ok _, .error _ => .isFalse fun hc => Except.noConfusion hc
  | .error _, .ok _ => .isFalse fun hc => Except.noConfusion hc

/-- `elemLt` decided `true`: the strict tuple order used by the heap. -/
def ElemBelow (a b : HeapElem) : Prop := elemLt a b = .ok true

instance (a b : HeapElem) : Decidable (ElemBelow a b) := by
  unfold ElemBelow
  infer_instance

/-- The heap `self.buffer` of merger.py, represented in ascending
tuple order.  `heapq.heappush` followed by repeated min-pops emits
elements in exactly this order (the `_seq` tags are distinct, so the
tuple order is total on every buffer whose keys have one type), and
both representations raise TypeError in exactly the same reachable
situations: inserting an element whose key type differs from the key
type of a nonempty buffer compares the two keys (heapq compares the
new tuple with its parent; the ordered list compares it with the head)
and raises, so a buffer with mixed key types is never constructed in
either representation. -/
def bufInsert (x : HeapElem) : List HeapElem → Except Unit (List HeapElem)
  | [] => .ok [x]
  | y :: ys =>
    match elemLt x y with
    | .error e => .error e
    | .ok true => .ok (x :: y :: ys)
    | .ok false =>
      match bufInsert x ys with
      | .error e => .error e
      | .ok rest => .ok (y :: rest)

/-- merger.py `EventMerger` state: the heap buffer, the two
configuration values from `__init__`, and the internal `_seq`
counter used as a tie-breaker tag. -/
structure MergerState where
  buffer : List HeapElem
  max_buffer : Nat
  max_delay : ℤ
  seqCounter : Nat
deriving DecidableEq, Repr

/-- `EventMerger.__init__(max_buffer, max_delay)`: empty buffer,
counter at zero. -/
def initMerger (max_buffer : Nat) (max_delay : ℤ) : MergerState :=
  { buffer := [], max_buffer := max_buffer, max_delay := max_delay, seqCounter := 0 }

/-- `EventMerger.ingest(entry)`: compute
`key = entry.timestamp or entry.arrival_time`, increment `self._seq`,
and push `(key, self._seq, entry)` onto the heap.  The push raises
TypeError when the key's type differs from the key type of a nonempty
buffer. -/
def ingest (e : LogEntry) (s : MergerState) : Except Unit MergerState :=
  match bufInsert { key := orderingKey e, tag := s.seqCounter + 1, entry := e } s.buffer with
  | .error err => .error err
  | .ok buf => .ok { s with buffer := buf, seqCounter := s.seqCounter + 1 }

/-- The per-element pop test of `EventMerger.drain`, with `len` the
buffer length at the moment the minimum element `x` is inspected:
pop if the buffer overflows `max_buffer`, or the entry has a truthy
timestamp, or its arrival time is at least `max_delay` old. -/
def popCond (maxB : Nat) (maxD now : ℤ) (len : Nat) (x : HeapElem) : Prop :=
  len > maxB ∨ tsTruthy x.entry.timestamp = true ∨ x.entry.arrival_time ≤ now - maxD

instance (maxB : Nat) (maxD now : ℤ) (len : Nat) (x : HeapElem) :
    Decidable (popCond maxB maxD now len x) := by
  unfold popCond
  infer_instance

/-- The `while self.buffer:` loop of `EventMerger.drain`, acting on the
ordered buffer: inspect the minimum element; if any of the three pop
conditions holds, pop it into the output and continue, otherwise stop.
Returns the remaining buffer and the popped entries in pop order. -/
def drainGo (maxB : Nat) (maxD now : ℤ) : List HeapElem → List HeapElem × List LogEntry
  | [] => ([], [])
  | x :: rest =>
    if popCond maxB maxD now (rest.length + 1) x then
      let r := drainGo maxB maxD now rest
      (r.1, x.entry :: r.2)
    else (x :: rest, [])

/-- `EventMerger.drain()` with the `time.monotonic()` reading passed
explicitly: returns the ready entries and the updated state. -/
def drain (now : ℤ) (s : MergerState) : List LogEntry × MergerState :=
  let r := drainGo s.max_buffer s.max_delay now s.buffer
  (r.2, { s with buffer := r.1 })

/-- Ingest a list of entries left to right (a sequence of
`EventMerger.ingest` calls). -/
def ingestAll : List LogEntry → MergerState → Except Unit MergerState
  | [], s => .ok s
  | e :: rest, s =>
    match ingest e s with
    | .error err => .error err
    | .ok s' => ingestAll rest s'

/-- A sequence of `EventMerger.drain()` calls at the given clock
readings; returns the concatenation of their outputs and the final
state. -/
def drainSeq : List ℤ → MergerState → List LogEntry × MergerState
  | [], s => ([], s)
  | t :: ts, s =>
    let r := drain t s
    let r' := drainSeq ts r.2
    (r.1 ++ r'.1, r'.2)

/-! ## SourceTail (tailer.py) -/

/-- The characters Python's `str.splitlines` treats as line
boundaries (for the Unicode range the logs use). -/
def isLineBreak (c : Char) : Bool :=
  c = '\n' ∨ c = '\r' ∨ c = '\x0b' ∨ c = '\x0c' ∨
  c = '\x1c' ∨ c = '\x1d' ∨ c = '\x1e' ∨ c = '\x85' ∨
  c = ' ' ∨ c = ' '

/-- Worker for `splitlines`: accumulate the current line (reversed);
`"\r\n"` counts as a single boundary; a nonempty trailing fragment
after the last boundary becomes the final element. -/
def splitlinesGo : List Char → List Char → List (List Char)
  | [], acc => if acc.isEmpty then [] else [acc.reverse]
  | '\r' :: '\n' :: rest, acc => acc.reverse :: splitlinesGo rest []
  | c :: rest, acc =>
    if isLineBreak c then acc.reverse :: splitlinesGo rest []
    else splitlinesGo rest (c :: acc)

/-- Python `text.splitlines(keepends=False)`. -/
def splitlines (s : String) : List String :=
  (splitlinesGo s.data []).map List.asString

/-- Python `text.endswith("\n")`. -/
def endsWithNewline (s : String) : Bool :=
  s.data.getLast? = some '\n'

/-- The per-tail mutable state of FileTail / PlainTextTail:
the read `offset`, the buffered unterminated fragment `self.partial`
(named `partialBuf` here), and the sequence counter `self.seq`,
together with the configured `job_id` and fallback `stage`. -/
structure TailState where
  job_id : String
  stage : String
  offset : Nat
  partialBuf : String
  seq : Nat
deriving DecidableEq, Repr

/-- What one poll observes of the tailed file: the file may be absent,
or present with the given content; `readable` is false when opening
the existing file raises an `OSError` (for example a permission
error).  Content is the decoded text; offsets and sizes count its
characters. -/
inductive FsView where
  | absent
  | present (content : String) (readable : Bool)
deriving DecidableEq, Repr

/-- Python exceptions that the tailer embedding can surface. -/
inductive PyErr where
  | osError
deriving DecidableEq, Repr

/-- `FileTail._read_new_lines` (shared by PlainTextTail): handle a
missing file, detect truncation (`size < self.offset` resets the
offset and drops the buffered fragment), return early when nothing is
new, read from the stored offset (raising `OSError` if the open
fails — the method has no exception handler), prepend the buffered
fragment, split into lines, and re-buffer a trailing unterminated
fragment. -/
def readNewLines (view : FsView) (st : TailState) :
    Except PyErr (List String × TailState) :=
  match view with
  | .absent => .ok ([], st)
  | .present content readable =>
    let size := content.data.length
    let st1 := if size < st.offset then { st with offset := 0, partialBuf := "" } else st
    if size = st1.offset then .ok ([], st1)
    else if readable = false then .error .osError
    else
      let data := List.asString (content.data.drop st1.offset)
      let st2 := { st1 with offset := size }
      let text := st2.partialBuf ++ data
      let lines := splitlines text
      if endsWithNewline text then .ok (lines, { st2 with partialBuf := "" })
      else if lines.isEmpty then .ok ([], { st2 with partialBuf := "" })
      else .ok (lines.dropLast, { st2 with partialBuf := lines.getLastD "" })

/-- Python regex `\s` on `str`: CPython's complete whitespace set
(the characters with bidirectional class B, S or WS, or separator
category Zs, Zl or Zp): TAB..CR (U+0009..U+000D), FS..US
(U+001C..U+001F), SPACE, NEL (U+0085), NBSP (U+00A0), OGHAM SPACE
MARK (U+1680), U+2000..U+200A, LINE SEPARATOR (U+2028), PARAGRAPH
SEPARATOR (U+2029), NARROW NBSP (U+202F), MEDIUM MATHEMATICAL SPACE
(U+205F) and IDEOGRAPHIC SPACE (U+3000). -/
def isPySpace (c : Char) : Bool :=
  (0x09 ≤ c.toNat ∧ c.toNat ≤ 0x0D) ∨ (0x1C ≤ c.toNat ∧ c.toNat ≤ 0x1F) ∨
  c.toNat = 0x20 ∨ c.toNat = 0x85 ∨ c.toNat = 0xA0 ∨ c.toNat = 0x1680 ∨
  (0x2000 ≤ c.toNat ∧ c.toNat ≤ 0x200A) ∨ c.toNat = 0x2028 ∨ c.toNat = 0x2029 ∨
  c.toNat = 0x202F ∨ c.toNat = 0x205F ∨ c.toNat = 0x3000

/-- The ASCII fragment of Python regex `\w`: `[A-Za-z0-9_]`.
Python's `\w` additionally matches the non-ASCII Unicode
alphanumerics; that table is interpreter data not reproduced here, so
the line matcher below takes the word-character predicate as a
parameter, the theorems about it quantify over every such predicate
(the interpreter's actual `\w` included), and `pyWordASCII`
instantiates it to evaluate concrete ASCII lines, on which it agrees
with the interpreter. -/
def pyWordASCII (c : Char) : Bool :=
  c.isAlphanum ∨ c = '_'

/-- `List.span`-style maximal-run splitter returning the run and the
rest. -/
def spanRun (p : Char → Bool) (cs : List Char) : List Char × List Char :=
  (cs.takeWhile p, cs.dropWhile p)

/-- Drop an expected literal prefix, or fail. -/
def dropLit : List Char → List Char → Option (List Char)
  | [], cs => some cs
  | l :: ls, c :: cs => if c = l then dropLit ls cs else none
  | _ :: _, [] => none

/-- The five captured groups of `PlainTextTail.LINE_PATTERN`. -/
structure PlainGroups where
  ts : String
  job_id : String
  stage : String
  level : String
  msg : String
deriving DecidableEq, Repr

/-- `PlainTextTail.LINE_PATTERN.match(line)`:
`^(?P<ts>\S+)\s+\[job=(?P<job_id>[^\]]+)\]\s+\[stage=(?P<stage>[^\]]+)\]\s+(?P<level>\w+)\s+(?P<msg>.*)$`,
parameterized by the word-character predicate `w` interpreting `\w`
(see `pyWordASCII`); `\s`/`\S` use the complete `isPySpace` set, and
`.` matches every character of a split line (only `\n` is excluded by
Python and a line never contains it).  For the interpreter's own `w`,
which is disjoint from `\s`, each quantifier's backtracking is forced
(a shorter `\S+`, `\s+`, `[^\]]+` or `\w+` run leaves the next
mandatory character class unsatisfied), so the regex engine's match
is the deterministic maximal-run parse implemented here; `msg` is
everything after the maximal whitespace run that follows the
level. -/
def plainLineMatch (w : Char → Bool) (line : String) : Option PlainGroups := do
  let cs := line.data
  let (ts, cs) := spanRun (fun c => !isPySpace c) cs
  if ts.isEmpty then none else
  let (sp1, cs) := spanRun isPySpace cs
  if sp1.isEmpty then none else
  let cs ← dropLit "[job=".data cs
  let (job, cs) := spanRun (fun c => c ≠ ']') cs
  if job.isEmpty then none else
  let cs ← dropLit "]".data cs
  let (sp2, cs) := spanRun isPySpace cs
  if sp2.isEmpty then none else
  let cs ← dropLit "[stage=".data cs
  let (stg, cs) := spanRun (fun c => c ≠ ']') cs
  if stg.isEmpty then none else
  let cs ← dropLit "]".data cs
  let (sp3, cs) := spanRun isPySpace cs
  if sp3.isEmpty then none else
  let (lvl, cs) := spanRun w cs
  if lvl.isEmpty then none else
  let (sp4, cs) := spanRun isPySpace cs
  if sp4.isEmpty then none else
  some { ts := ts.asString, job_id := job.asString, stage := stg.asString,
         level := lvl.asString, msg := cs.asString }

/-- The entry-building loop of `PlainTextTail.poll`: for each line
matching the pattern, increment `self.seq` and build a LogEntry from
the matched groups (overriding the tail's configured job id and
stage), with no event, the raw line object, and the current monotonic
time as arrival time.  Non-matching lines are skipped. -/
def plainBuildEntries (w : Char → Bool) (now : ℤ) :
    List String → Nat → List LogEntry × Nat
  | [], seq => ([], seq)
  | line :: rest, seq =>
    match plainLineMatch w line with
    | none => plainBuildEntries w now rest seq
    | some g =>
      let e : LogEntry :=
        { job_id := g.job_id, stage := g.stage, timestamp := some g.ts,
          level := some g.level, event := none, message := some g.msg,
          raw := .ofLine line, arrival_time := now, seq := seq + 1 }
      let r := plainBuildEntries w now rest (seq + 1)
      (e :: r.1, r.2)

/-- `PlainTextTail.poll()`: read the new complete lines and build one
entry per matching line (`w` interprets `\w` as in
`plainLineMatch`). -/
def plainTextPoll (w : Char → Bool) (view : FsView) (now : ℤ) (st : TailState) :
    Except PyErr (List LogEntry × TailState) :=
  match readNewLines view st with
  | .error e => .error e
  | .ok r =>
    let b := plainBuildEntries w now r.1 r.2.seq
    .ok (b.1, { r.2 with seq := b.2 })

/-! ## TailManager forwarding (tailer.py) and the bounded channel -/

/-- The bounded `queue.Queue(maxsize)` shared between the tail thread
and the renderer, reduced to the state its non-blocking producer
interface observes. -/
structure BoundedQueue where
  items : List LogEntry
  maxsize : Nat
deriving DecidableEq, Repr

/-- `Queue.put_nowait(entry)`: raises `Full` (modelled as
`Except.error ()`) when a positive `maxsize` is reached, otherwise
appends. -/
def putNowait (q : BoundedQueue) (e : LogEntry) : Except Unit BoundedQueue :=
  if 0 < q.maxsize ∧ q.maxsize ≤ q.items.length then .error ()
  else .ok { q with items := q.items ++ [e] }

/-- The forwarding loop of `TailManager.tick` for one tail's polled
entries: `try: self.out_queue.put_nowait(entry) except: pass` — each
entry is attempted in order; a full queue drops the entry and the
loop continues. -/
def tickForward (q : BoundedQueue) : List LogEntry → BoundedQueue
  | [] => q
  | e :: rest =>
    match putNowait q e with
    | .ok q' => tickForward q' rest
    | .error _ => tickForward q rest

/-! ## Path resolution (utils/paths.py and cli.py) -/

/-- `STAGE_DIRECTORY_MAP`: logical stage name to directory name (the
same table appears in utils/paths.py and cli.py). -/
def STAGE_DIRECTORY_MAP : List (String × String) :=
  [("heightmap", "Heightmap"), ("tiler", "Tiler"),
   ("weather", "WeatherAnalyses"), ("treeplanter", "TreePlanter")]

/-- The ASCII fragment of Python `str.capitalize()`: first character
uppercased, the rest lowercased.  Python's `capitalize` titlecases
and lowercases by the full Unicode tables, which are interpreter
data, so `stage_dir` below takes the capitalize function as a
parameter; theorems quantify over it (covering the interpreter's
actual function), and `pyCapitalizeASCII` instantiates it for
concrete ASCII stage names, on which it agrees with the
interpreter. -/
def pyCapitalizeASCII (s : String) : String :=
  match s.data with
  | [] => ""
  | c :: rest => (c.toUpper :: rest.map Char.toLower).asString

/-- `paths.stage_dir(stage)` relative to the resolved repository
root: `STAGE_DIRECTORY_MAP.get(stage, stage.capitalize())`, then
`repo_root() / "MapGenerator" / dir_name`, with `capitalize`
interpreting `str.capitalize` (see `pyCapitalizeASCII`).  The
unmapped case falls back to the capitalized name; nothing is
raised. -/
def stage_dir (capitalize : String → String) (root stage : String) : String :=
  let dir_name := ((STAGE_DIRECTORY_MAP.lookup stage).getD (capitalize stage))
  root ++ "/MapGenerator/" ++ dir_name

/-- `cli.resolved_stage_outbox(stage)`: `STAGE_DIRECTORY_MAP.get(stage)`
with no fallback — `None` raises `KeyError` (modelled as
`Except.error ()`); otherwise the fixed home-relative outbox path
(before `expanduser`). -/
def resolved_stage_outbox (stage : String) : Except Unit String :=
  match STAGE_DIRECTORY_MAP.lookup stage with
  | none => .error ()
  | some directory_name =>
    .ok ("~/Code/RTSColonyTerrainGenerator/MapGenerator/" ++ directory_name ++ "/outbox")

/-! ## Merger buffer invariant -/

/-- Invariant of every reachable `EventMerger` state: the buffer is in
strictly ascending tuple order, every element's stored key is the
ordering key of its entry as computed by `ingest`, and every stored
tag was assigned by the `_seq` counter (so is at most its current
value). -/
def Inv (s : MergerState) : Prop :=
  List.Pairwise ElemBelow s.buffer ∧
  (∀ x ∈ s.buffer, x.key = orderingKey x.entry) ∧
  (∀ x ∈ s.buffer, x.tag ≤ s.seqCounter)

/-! ## Concrete values used in witnesses and counterexamples -/

/-- A minimal entry with an explicit timestamp. -/
def mkTsEntry (t : String) (a : ℤ) (sq : Nat) : LogEntry :=
  { job_id := "job-1", stage := "heightmap", timestamp := some t, level := some "INFO",
    event := none, message := some "m", raw := .other, arrival_time := a, seq := sq }

/-- A minimal entry with no timestamp. -/
def mkNoTsEntry (a : ℤ) (sq : Nat) : LogEntry :=
  { job_id := "job-1", stage := "heightmap", timestamp := none, level := some "INFO",
    event := none, message := some "m", raw := .other, arrival_time := a, seq := sq }

/-- Scenario A entries: timestamps T1 < T2, ingested in the order
(T2, T1). -/
def entryT1 : LogEntry := mkTsEntry "2024-01-15T12:00:00Z" 5 1
def entryT2 : LogEntry := mkTsEntry "2024-01-15T12:00:01Z" 4 2

/-- The merger state after ingesting (T2, T1) into a default-sized
merger. -/
def stateA : MergerState :=
  ((ingestAll [entryT2, entryT1] (initMerger 200 1)).toOption).getD
    (initMerger 200 1)

/-- Scenario B entry: no timestamp, arrival time 0. -/
def entryU : LogEntry := mkNoTsEntry 0 1

/-- The merger state (max delay 2) after ingesting `entryU` at time
t0 = 0. -/
def stateB : MergerState :=
  ((ingest entryU (initMerger 200 2)).toOption).getD (initMerger 200 2)

/-- Two young untimestamped entries for the overflow counterexample. -/
def entryU0 : LogEntry := mkNoTsEntry 0 1
def entryU1 : LogEntry := mkNoTsEntry 1 2

/-- Merger with `max_buffer = 1`, `max_delay = 10`, both untimestamped
entries ingested: its buffer size 2 exceeds `max_buffer`. -/
def stateC2 : MergerState :=
  ((ingestAll [entryU0, entryU1] (initMerger 1 10)).toOption).getD (initMerger 1 10)

/-- Two entries with the same timestamp whose per-tail sequence
numbers (5 and 1) run against their ingestion order. -/
def entryS5 : LogEntry := mkTsEntry "2024-01-15T12:00:00Z" 0 5
def entryS1 : LogEntry :=
  { job_id := "job-1", stage := "tiler", timestamp := some "2024-01-15T12:00:00Z",
    level := some "INFO", event := none, message := some "n", raw := .other,
    arrival_time := 0, seq := 1 }

/-- State after ingesting `entryS5` then `entryS1`. -/
def stateC4 : MergerState :=
  ((ingestAll [entryS5, entryS1] (initMerger 200 1)).toOption).getD
    (initMerger 200 1)

/-- State holding one timestamped (string-keyed) entry. -/
def stateT : MergerState :=
  ((ingest entryT1 (initMerger 200 1)).toOption).getD (initMerger 200 1)

/-- State holding one untimestamped (float-keyed) entry. -/
def stateN : MergerState :=
  ((ingest entryU (initMerger 200 1)).toOption).getD (initMerger 200 1)

/-! ## Order lemmas for heap elements -/

/-- `charListLt` is Lean's lexicographic list order on characters. -/
theorem charListLt_iff : ∀ (as bs : List Char), charListLt as bs = true ↔ as < bs := by
  intro as
  induction as with
  | nil =>
    intro bs
    cases bs with
    | nil =>
      simp only [charListLt, Bool.false_eq_true, false_iff]
      intro h
      cases h
    | cons b bs =>
      simp only [charListLt, true_iff]
      exact List.Lex.nil
  | cons a as ih =>
    intro bs
    cases bs with
    | nil =>
      simp only [charListLt, Bool.false_eq_true, false_iff]
      intro h
      cases h
    | cons b bs =>
      simp only [charListLt]
      by_cases hab : a < b
      · rw [if_pos hab]
        simp only [true_iff]
        exact List.Lex.rel hab
      · rw [if_neg hab]
        by_cases hba : b < a
        · rw [if_pos hba]
          simp only [Bool.false_eq_true, false_iff]
          intro h
          cases h with
          | cons h' => exact absurd hba (lt_irrefl _)
          | rel h' => exact hab h'
        · rw [if_neg hba]
          have heq : a = b := le_antisymm (le_of_not_lt hba) (le_of_not_lt hab)
          subst heq
          rw [ih bs]
          constructor
          · intro h
            exact List.Lex.cons h
          · intro h
            cases h with
            | cons h' => exact h'
            | rel h' => exact absurd h' hab

/-- `strLt` agrees with Lean's `String` order (both are code-point
lexicographic, as in Python). -/
theorem strLt_iff (a b : String) : strLt a b = true ↔ a < b := by
  rw [String.lt_iff_toList_lt]
  exact charListLt_iff a.data b.data

theorem elemBelow_iff (a b : HeapElem) :
    ElemBelow a b ↔
      ((∃ s t, a.key = PyKey.str s ∧ b.key = PyKey.str t ∧
          (s < t ∨ (s = t ∧ a.tag < b.tag))) ∨
       (∃ x y, a.key = PyKey.num x ∧ b.key = PyKey.num y ∧
          (x < y ∨ (x = y ∧ a.tag < b.tag)))) := by
  obtain ⟨ka, ta, ea⟩ := a
  obtain ⟨kb, tb, eb⟩ := b
  simp only [ElemBelow, elemLt]
  cases ka <;> cases kb <;>
    simp only [pyKeyEq, pyKeyLt] <;>
    split_ifs <;>
    simp_all [strLt_iff]

theorem elemBelow_trans {a b c : HeapElem} :
    ElemBelow a b → ElemBelow b c → ElemBelow a c := by
  intro h1 h2
  rw [elemBelow_iff] at h1 h2 ⊢
  rcases h1 with ⟨s, t, ha, hb, h⟩ | ⟨x, y, ha, hb, h⟩ <;>
    rcases h2 with ⟨s', t', hb', hc, h'⟩ | ⟨x', y', hb', hc, h'⟩ <;>
      rw [hb] at hb' <;> cases hb'
  · left
    refine ⟨s, t', ha, hc, ?_⟩
    rcases h with h | ⟨rfl, htag⟩ <;> rcases h' with h' | ⟨rfl, htag'⟩
    · exact Or.inl (lt_trans h h')
    · exact Or.inl h
    · exact Or.inl h'
    · exact Or.inr ⟨rfl, lt_trans htag htag'⟩
  · right
    refine ⟨x, y', ha, hc, ?_⟩
    rcases h with h | ⟨rfl, htag⟩ <;> rcases h' with h' | ⟨rfl, htag'⟩
    · exact Or.inl (lt_trans h h')
    · exact Or.inl h
    · exact Or.inl h'
    · exact Or.inr ⟨rfl, lt_trans htag htag'⟩

theorem elemBelow_asymm {a b : HeapElem} :
    ElemBelow a b → ¬ ElemBelow b a := by
  intro h1 h2
  rw [elemBelow_iff] at h1 h2
  rcases h1 with ⟨s, t, ha, hb, h⟩ | ⟨x, y, ha, hb, h⟩ <;>
    rcases h2 with ⟨s', t', hb', ha', h'⟩ | ⟨x', y', hb', ha', h'⟩ <;>
      rw [ha] at ha' <;> cases ha' <;> rw [hb] at hb' <;> cases hb'
  · rcases h with h | ⟨rfl, htag⟩ <;> rcases h' with h' | ⟨heq, htag'⟩
    · exact absurd h' (lt_asymm h)
    · exact absurd h (heq ▸ lt_irrefl _)
    · exact absurd h' (lt_irrefl _)
    · exact absurd htag' (lt_asymm htag)
  · rcases h with h | ⟨rfl, htag⟩ <;> rcases h' with h' | ⟨heq, htag'⟩
    · exact absurd h' (lt_asymm h)
    · exact absurd h (heq ▸ lt_irrefl _)
    · exact absurd h' (lt_irrefl _)
    · exact absurd htag' (lt_asymm htag)

theorem elemBelow_irrefl (a : HeapElem) : ¬ ElemBelow a a := by
  intro h
  exact elemBelow_asymm h h

/-- A failed strict comparison between elements with distinct tags
reverses: `not (a < b)` implies `b < a` in the tuple order. -/
theorem elemLt_false_reverse {a b : HeapElem}
    (h : elemLt a b = .ok false) (htag : a.tag ≠ b.tag) : ElemBelow b a := by
  obtain ⟨ka, ta, ea⟩ := a
  obtain ⟨kb, tb, eb⟩ := b
  simp only [elemLt] at h
  rw [elemBelow_iff]
  simp only at htag
  cases ka with
  | str s =>
    cases kb with
    | str t =>
      by_cases heq : s = t
      · subst heq
        simp only [pyKeyEq, decide_True, if_true, decide_eq_true_eq] at h
        rcases eq_or_ne ta tb with htg | htg
        · exact absurd htg htag
        · rw [if_neg htg] at h
          simp only [Except.ok.injEq, decide_eq_false_iff_not] at h
          exact Or.inl ⟨s, s, rfl, rfl, Or.inr ⟨rfl, by dsimp only; omega⟩⟩
      · rw [pyKeyEq, decide_eq_false heq, if_neg (by simp)] at h
        simp only [pyKeyLt, Except.ok.injEq] at h
        have hns : ¬ s < t := by
          intro hc
          rw [(strLt_iff s t).mpr hc] at h
          cases h
        refine Or.inl ⟨t, s, rfl, rfl, Or.inl ?_⟩
        rcases lt_trichotomy s t with h' | h' | h'
        · exact absurd h' hns
        · exact absurd h' heq
        · exact h'
    | num y => simp [pyKeyEq, pyKeyLt] at h
  | num x =>
    cases kb with
    | str t => simp [pyKeyEq, pyKeyLt] at h
    | num y =>
      by_cases heq : x = y
      · subst heq
        simp only [pyKeyEq, decide_True, if_true, decide_eq_true_eq] at h
        rcases eq_or_ne ta tb with htg | htg
        · exact absurd htg htag
        · rw [if_neg htg] at h
          simp only [Except.ok.injEq, decide_eq_false_iff_not] at h
          exact Or.inr ⟨x, x, rfl, rfl, Or.inr ⟨rfl, by dsimp only; omega⟩⟩
      · rw [pyKeyEq, decide_eq_false heq, if_neg (by simp)] at h
        simp only [pyKeyLt, Except.ok.injEq, decide_eq_false_iff_not] at h
        refine Or.inr ⟨y, x, rfl, rfl, Or.inl ?_⟩
        rcases lt_trichotomy x y with h' | h' | h'
        · exact absurd h' h
        · exact absurd h' heq
        · exact h'

/-! ## Buffer insertion lemmas -/

theorem bufInsert_perm {x : HeapElem} :
    ∀ {l l' : List HeapElem}, bufInsert x l = .ok l' → l'.Perm (x :: l) := by
  intro l
  induction l with
  | nil =>
    intro l' h
    simp only [bufInsert, Except.ok.injEq] at h
    rw [← h]
  | cons y ys ih =>
    intro l' h
    rw [bufInsert] at h
    cases hlt : elemLt x y with
    | error e => rw [hlt] at h; cases h
    | ok b =>
      rw [hlt] at h
      cases b with
      | true =>
        cases h
        exact List.Perm.refl _
      | false =>
        cases hrec : bufInsert x ys with
        | error e => rw [hrec] at h; cases h
        | ok rest =>
          rw [hrec] at h
          cases h
          exact ((ih hrec).cons y).trans (List.Perm.swap x y ys)

theorem bufInsert_sorted {x : HeapElem} :
    ∀ {l l' : List HeapElem}, List.Pairwise ElemBelow l →
      (∀ y ∈ l, x.tag ≠ y.tag) → bufInsert x l = .ok l' →
      List.Pairwise ElemBelow l' := by
  intro l
  induction l with
  | nil =>
    intro l' _ _ h
    simp only [bufInsert, Except.ok.injEq] at h
    rw [← h]
    exact List.pairwise_singleton _ _
  | cons y ys ih =>
    intro l' hp htag h
    rw [bufInsert] at h
    rcases List.pairwise_cons.mp hp with ⟨hy, hys⟩
    cases hlt : elemLt x y with
    | error e => rw [hlt] at h; cases h
    | ok b =>
      rw [hlt] at h
      cases b with
      | true =>
        cases h
        refine List.pairwise_cons.mpr ⟨?_, hp⟩
        intro z hz
        rcases hz with _ | hz
        · exact hlt
        · exact elemBelow_trans hlt (hy _ (by assumption))
      | false =>
        cases hrec : bufInsert x ys with
        | error e => rw [hrec] at h; cases h
        | ok rest =>
          rw [hrec] at h
          cases h
          refine List.pairwise_cons.mpr ⟨?_, ?_⟩
          · intro z hz
            have hz' := (bufInsert_perm hrec).mem_iff.mp hz
            rcases List.mem_cons.mp hz' with hz' | hz'
            · cases hz'
              exact elemLt_false_reverse hlt (htag y (by simp))
            · exact hy _ hz'
          · exact ih hys (fun z hz => htag z (by simp [hz])) hrec

/-! ## Invariant preservation -/

theorem inv_init (mb : Nat) (md : ℤ) : Inv (initMerger mb md) := by
  refine ⟨List.Pairwise.nil, ?_, ?_⟩ <;> intro x hx <;> cases hx

theorem inv_ingest {e : LogEntry} {s s' : MergerState}
    (hinv : Inv s) (h : ingest e s = .ok s') : Inv s' := by
  obtain ⟨hsort, hkey, htag⟩ := hinv
  rw [ingest] at h
  cases hbuf : bufInsert { key := orderingKey e, tag := s.seqCounter + 1, entry := e }
      s.buffer with
  | error err => rw [hbuf] at h; cases h
  | ok buf =>
    rw [hbuf] at h
    cases h
    have hperm := bufInsert_perm hbuf
    refine ⟨?_, ?_, ?_⟩
    · refine bufInsert_sorted hsort ?_ hbuf
      intro y hy
      have := htag y hy
      dsimp only
      omega
    · intro x hx
      rcases List.mem_cons.mp (hperm.mem_iff.mp hx) with hx' | hx'
      · cases hx'; rfl
      · exact hkey x hx'
    · intro x hx
      rcases List.mem_cons.mp (hperm.mem_iff.mp hx) with hx' | hx'
      · cases hx'; dsimp only; omega
      · have := htag x hx'
        dsimp only
        omega

/-! ## Drain characterization -/

theorem drainGo_spec (maxB : Nat) (maxD now : ℤ) :
    ∀ l : List HeapElem, ∃ k, k ≤ l.length ∧
      drainGo maxB maxD now l = (l.drop k, (l.take k).map (·.entry)) ∧
      ∀ p, p < k → ∀ x, l.get? p = some x →
        popCond maxB maxD now (l.length - p) x := by
  intro l
  induction l with
  | nil => exact ⟨0, by simp [drainGo]⟩
  | cons x rest ih =>
    by_cases hc : popCond maxB maxD now (rest.length + 1) x
    · obtain ⟨k, hk, heq, hcond⟩ := ih
      refine ⟨k + 1, by simpa using hk, ?_, ?_⟩
      · simp only [drainGo, if_pos hc, heq, List.drop_succ_cons, List.take_succ_cons,
          List.map_cons]
      · intro p hp y hy
        cases p with
        | zero =>
          simp only [List.get?] at hy
          cases hy
          simpa using hc
        | succ q =>
          simp only [List.get?] at hy
          have := hcond q (by omega) y hy
          simpa [List.length_cons, Nat.succ_sub_succ] using this
    · exact ⟨0, by simp [drainGo, if_neg hc]⟩

theorem drain_out_take {now : ℤ} {s : MergerState} :
    ∃ k, k ≤ s.buffer.length ∧
      (drain now s).1 = (s.buffer.take k).map (·.entry) ∧
      (drain now s).2 = { s with buffer := s.buffer.drop k } ∧
      ∀ p, p < k → ∀ x, s.buffer.get? p = some x →
        popCond s.max_buffer s.max_delay now (s.buffer.length - p) x := by
  obtain ⟨k, hk, heq, hcond⟩ := drainGo_spec s.max_buffer s.max_delay now s.buffer
  exact ⟨k, hk, by simp [drain, heq], by simp [drain, heq], hcond⟩

theorem inv_drain {now : ℤ} {s : MergerState} (hinv : Inv s) :
    Inv (drain now s).2 := by
  obtain ⟨hsort, hkey, htag⟩ := hinv
  obtain ⟨k, _, _, hstate, _⟩ := @drain_out_take now s
  rw [hstate]
  refine ⟨hsort.sublist (List.drop_sublist _ _), ?_, ?_⟩
  · intro x hx
    exact hkey x (List.drop_subset _ _ hx)
  · intro x hx
    exact htag x (List.drop_subset _ _ hx)

theorem inv_ingestAll :
    ∀ {es : List LogEntry} {s s' : MergerState},
      Inv s → ingestAll es s = .ok s' → Inv s' := by
  intro es
  induction es with
  | nil =>
    intro s s' hinv h
    rw [ingestAll] at h
    cases h
    exact hinv
  | cons e rest ih =>
    intro s s' hinv h
    rw [ingestAll] at h
    cases hstep : ingest e s with
    | error err => rw [hstep] at h; cases h
    | ok s1 =>
      rw [hstep] at h
      exact ih (inv_ingest hinv hstep) h

theorem ingestAll_entries_perm :
    ∀ {es : List LogEntry} {s s' : MergerState},
      ingestAll es s = .ok s' →
      (s'.buffer.map (·.entry)).Perm (s.buffer.map (·.entry) ++ es) := by
  intro es
  induction es with
  | nil =>
    intro s s' h
    rw [ingestAll] at h
    cases h
    simp
  | cons e rest ih =>
    intro s s' h
    rw [ingestAll] at h
    cases hstep : ingest e s with
    | error err => rw [hstep] at h; cases h
    | ok s1 =>
      rw [hstep] at h
      have h1 := ih h
      rw [ingest] at hstep
      cases hbuf : bufInsert { key := orderingKey e, tag := s.seqCounter + 1, entry := e }
          s.buffer with
      | error err => rw [hbuf] at hstep; cases hstep
      | ok buf =>
        rw [hbuf] at hstep
        have hs1 : s1 = { s with buffer := buf, seqCounter := s.seqCounter + 1 } :=
          (Except.ok.inj hstep).symm
        have h2 : (s1.buffer.map (·.entry)).Perm (e :: s.buffer.map (·.entry)) := by
          rw [hs1]
          have := (bufInsert_perm hbuf).map (·.entry)
          simpa using this
        exact h1.trans ((h2.append_right rest).trans List.perm_middle.symm)

theorem drainSeq_out_take :
    ∀ (nows : List ℤ) (s : MergerState), ∃ K, K ≤ s.buffer.length ∧
      (drainSeq nows s).1 = (s.buffer.take K).map (·.entry) := by
  intro nows
  induction nows with
  | nil => intro s; exact ⟨0, by simp [drainSeq]⟩
  | cons t ts ih =>
    intro s
    obtain ⟨k, hk, hout, hstate, _⟩ := @drain_out_take t s
    obtain ⟨K', hK', hout'⟩ := ih (drain t s).2
    have hbuffer : (drain t s).2.buffer = s.buffer.drop k := by rw [hstate]
    rw [hbuffer] at hK' hout'
    refine ⟨k + K', ?_, ?_⟩
    · rw [List.length_drop] at hK'
      omega
    · show (drain t s).1 ++ (drainSeq ts (drain t s).2).1 = _
      rw [hout, hout', List.take_add, List.map_append]

/-- Distinct positions cannot both hold a value that occurs at most
once. -/
theorem get?_unique_of_count_le_one {α : Type} [DecidableEq α] {l : List α} {a : α}
    (h : l.count a ≤ 1) {i j : Nat} (hi : l.get? i = some a) (hj : l.get? j = some a) :
    i = j := by
  by_contra hne
  have key : ∀ p q : Nat, p < q → l.get? p = some a → l.get? q = some a → False := by
    intro p q hpq hp hq
    have hmem1 : a ∈ l.take (p + 1) := by
      have : (l.take (p + 1)).get? p = some a := by
        rw [List.get?_take (Nat.lt_succ_self p)]
        exact hp
      exact List.get?_mem this
    have hmem2 : a ∈ l.drop (p + 1) := by
      have : (l.drop (p + 1)).get? (q - (p + 1)) = some a := by
        rw [List.get?_drop]
        have : p + 1 + (q - (p + 1)) = q := by omega
        rw [this]
        exact hq
      exact List.get?_mem this
    have hcnt : l.count a = (l.take (p + 1)).count a + (l.drop (p + 1)).count a := by
      conv_lhs => rw [← List.take_append_drop (p + 1) l]
      rw [List.count_append]
    have h1 := List.count_pos_iff_mem.mpr hmem1
    have h2 := List.count_pos_iff_mem.mpr hmem2
    omega
  rcases Nat.lt_or_ge i j with hij | hij
  · exact key i j hij hi hj
  · exact key j i (by omega) hj hi

/-! ## Claim C1 -/

/-- C1: for every pair of entries that both carry an explicit (truthy)
timestamp and have both been ingested into the EventMerger, `drain()`
never emits the entry with the later timestamp before the entry with
the earlier timestamp, regardless of the order in which the two were
ingested: after any sequence of `ingest` calls containing both entries
(in any order), the concatenated output of any sequence of `drain()`
calls never places the later-timestamped entry before the
earlier-timestamped one. -/
theorem C1_drain_timestamp_order
    (mb : Nat) (md : ℤ) (es : List LogEntry) (e1 e2 : LogEntry) (t1 t2 : String)
    (h1 : e1.timestamp = some t1) (hne1 : t1 ≠ "")
    (h2 : e2.timestamp = some t2) (hne2 : t2 ≠ "")
    (hlt : t1 < t2)
    (hc1 : es.count e1 = 1) (hc2 : es.count e2 = 1)
    (s : MergerState) (hok : ingestAll es (initMerger mb md) = .ok s)
    (nows : List ℤ) (i j : Nat)
    (hi : (drainSeq nows s).1.get? i = some e2)
    (hj : (drainSeq nows s).1.get? j = some e1) :
    j < i := by
  obtain ⟨hsort, hkey, htagbound⟩ := inv_ingestAll (inv_init mb md) hok
  have hperm : (s.buffer.map (·.entry)).Perm es := by
    simpa [initMerger] using ingestAll_entries_perm hok
  have hcnt1 : (s.buffer.map (·.entry)).count e1 = 1 := by
    rw [hperm.count_eq]; exact hc1
  have hcnt2 : (s.buffer.map (·.entry)).count e2 = 1 := by
    rw [hperm.count_eq]; exact hc2
  obtain ⟨x1, hx1mem, hx1e⟩ := List.mem_map.mp
    (List.count_pos_iff_mem.mp (by omega : 0 < (s.buffer.map (·.entry)).count e1))
  obtain ⟨x2, hx2mem, hx2e⟩ := List.mem_map.mp
    (List.count_pos_iff_mem.mp (by omega : 0 < (s.buffer.map (·.entry)).count e2))
  have hk1 : x1.key = .str t1 := by
    rw [hkey x1 hx1mem, hx1e, orderingKey, h1]
    simp [hne1]
  have hk2 : x2.key = .str t2 := by
    rw [hkey x2 hx2mem, hx2e, orderingKey, h2]
    simp [hne2]
  have hbelow : ElemBelow x1 x2 := by
    rw [elemBelow_iff]
    exact Or.inl ⟨t1, t2, hk1, hk2, Or.inl hlt⟩
  obtain ⟨p1, hp1⟩ := List.mem_iff_get?.mp hx1mem
  obtain ⟨p2, hp2⟩ := List.mem_iff_get?.mp hx2mem
  have hp12 : p1 < p2 := by
    rcases Nat.lt_trichotomy p1 p2 with h | h | h
    · exact h
    · exfalso
      rw [h, hp2] at hp1
      have hx12 : x2 = x1 := Option.some.inj hp1
      rw [hx12, hx1e] at hx2e
      rw [hx2e] at h1
      rw [h1] at h2
      exact absurd hlt ((Option.some.inj h2) ▸ lt_irrefl t1)
    · exfalso
      obtain ⟨hlen2, hget2⟩ := List.get?_eq_some.mp hp2
      obtain ⟨hlen1, hget1⟩ := List.get?_eq_some.mp hp1
      have := (List.pairwise_iff_get.mp hsort) ⟨p2, hlen2⟩ ⟨p1, hlen1⟩ h
      rw [hget1, hget2] at this
      exact elemBelow_asymm hbelow this
  obtain ⟨K, hK, hout⟩ := drainSeq_out_take nows s
  rw [hout] at hi hj
  rw [List.get?_map] at hi hj
  have hiK : i < K := by
    cases hy : (s.buffer.take K).get? i with
    | none => rw [hy] at hi; cases hi
    | some y =>
      have := (List.get?_eq_some.mp hy).1
      rw [List.length_take] at this
      omega
  have hjK : j < K := by
    cases hy : (s.buffer.take K).get? j with
    | none => rw [hy] at hj; cases hj
    | some y =>
      have := (List.get?_eq_some.mp hy).1
      rw [List.length_take] at this
      omega
  rw [List.get?_take hiK] at hi
  rw [List.get?_take hjK] at hj
  have hi' : (s.buffer.map (·.entry)).get? i = some e2 := by
    rw [List.get?_map]
    exact hi
  have hj' : (s.buffer.map (·.entry)).get? j = some e1 := by
    rw [List.get?_map]
    exact hj
  have hp2' : (s.buffer.map (·.entry)).get? p2 = some e2 := by
    rw [List.get?_map, hp2, Option.map_some', hx2e]
  have hp1' : (s.buffer.map (·.entry)).get? p1 = some e1 := by
    rw [List.get?_map, hp1, Option.map_some', hx1e]
  have hieq : i = p2 := get?_unique_of_count_le_one (by omega) hi' hp2'
  have hjeq : j = p1 := get?_unique_of_count_le_one (by omega) hj' hp1'
  omega

/-- The C1 theorem applied to end-to-end scenario A: timestamps
T1 < T2 ingested in the order (T2, T1); one later `drain()` returns
`[T1, T2]`, and the emission positions of T2 (position 1) and T1
(position 0) satisfy the ordering property. -/
theorem C1_drain_timestamp_order_witness :
    (drainSeq [10] stateA).1 = [entryT1, entryT2] ∧ (0 : Nat) < 1 :=
  ⟨by decide,
   C1_drain_timestamp_order 200 1 [entryT2, entryT1] entryT1 entryT2
     "2024-01-15T12:00:00Z" "2024-01-15T12:00:01Z" rfl (by decide) rfl (by decide)
     (by rw [← strLt_iff]; decide) (by decide) (by decide) stateA (by decide) [10] 1 0
     (by decide) (by decide)⟩

/-! ## Claim C2 -/

/-- An entry whose timestamp is not truthy is keyed by its arrival
time. -/
theorem orderingKey_of_not_truthy {e : LogEntry}
    (h : tsTruthy e.timestamp = false) : orderingKey e = .num e.arrival_time := by
  cases hts : e.timestamp with
  | none => simp only [orderingKey, hts]
  | some t =>
    rw [hts] at h
    simp only [tsTruthy, decide_eq_false_iff_not, not_not] at h
    simp only [orderingKey, hts, if_pos h]

/-- A numeric ordering key always carries the entry's arrival time. -/
theorem orderingKey_num_arrival {e : LogEntry} {a : ℤ}
    (h : orderingKey e = .num a) : a = e.arrival_time := by
  cases hts : e.timestamp with
  | none =>
    simp only [orderingKey, hts] at h
    exact (PyKey.num.inj h).symm
  | some t =>
    simp only [orderingKey, hts] at h
    by_cases he : t = ""
    · rw [if_pos he] at h
      exact (PyKey.num.inj h).symm
    · rw [if_neg he] at h
      cases h

/-- If every element of a prefix satisfies a length-independent pop
condition, the drain loop pops the whole prefix and continues on the
rest of the buffer. -/
theorem drainGo_all_popped (maxB : Nat) (maxD now : ℤ) :
    ∀ (l1 l2 : List HeapElem),
      (∀ y ∈ l1, tsTruthy y.entry.timestamp = true ∨
        y.entry.arrival_time ≤ now - maxD) →
      drainGo maxB maxD now (l1 ++ l2) =
        ((drainGo maxB maxD now l2).1,
          l1.map (·.entry) ++ (drainGo maxB maxD now l2).2) := by
  intro l1
  induction l1 with
  | nil => intro l2 _; simp
  | cons y ys ih =>
    intro l2 hall
    have hcond : popCond maxB maxD now ((ys ++ l2).length + 1) y := by
      rcases hall y (by simp) with h | h
      · exact Or.inr (Or.inl h)
      · exact Or.inr (Or.inr h)
    rw [List.cons_append, drainGo, if_pos hcond, ih l2 (fun z hz => hall z (by simp [hz]))]
    rfl

/-- C2 (amended): an ingested entry without a (truthy) timestamp is
withheld from `drain()` output as long as its age is below
`max_delay` and the buffer does not exceed `max_buffer` (safety: if
such a young entry is emitted, the buffer exceeded `max_buffer`), and
once its age is at least `max_delay` at some `drain(now)` call, that
drain returns it (liveness).  The overflow condition alone does not
guarantee emission of a particular entry — see the counterexample. -/
theorem C2_untimestamped_withheld :
    (∀ (s : MergerState) (now : ℤ) (e : LogEntry),
        tsTruthy e.timestamp = false →
        now - s.max_delay < e.arrival_time →
        e ∈ (drain now s).1 →
        s.buffer.length > s.max_buffer) ∧
    (∀ (s : MergerState) (now : ℤ) (x : HeapElem),
        Inv s → x ∈ s.buffer →
        tsTruthy x.entry.timestamp = false →
        x.entry.arrival_time ≤ now - s.max_delay →
        x.entry ∈ (drain now s).1) := by
  constructor
  · intro s now e hts hage hmem
    obtain ⟨k, hk, hout, _, hcond⟩ := @drain_out_take now s
    rw [hout] at hmem
    obtain ⟨y, hymem, hye⟩ := List.mem_map.mp hmem
    obtain ⟨p, hp⟩ := List.mem_iff_get?.mp hymem
    have hpk : p < k := by
      have := (List.get?_eq_some.mp hp).1
      rw [List.length_take] at this
      omega
    have hpb : s.buffer.get? p = some y := by
      rw [← List.get?_take hpk]
      exact hp
    rcases hcond p hpk y hpb with h | h | h
    · omega
    · rw [hye] at h
      rw [h] at hts
      cases hts
    · rw [hye] at h
      exact absurd h (not_le.mpr hage)
  · intro s now x hinv hmem hts hage
    obtain ⟨hsort, hkey, _⟩ := hinv
    obtain ⟨l1, l2, hsplit⟩ := List.append_of_mem hmem
    have hall : ∀ y ∈ l1 ++ [x], tsTruthy y.entry.timestamp = true ∨
        y.entry.arrival_time ≤ now - s.max_delay := by
      intro y hy
      rcases List.mem_append.mp hy with hy | hy
      · right
        rw [hsplit] at hsort hkey
        have hcross := (List.pairwise_append.mp hsort).2.2 y hy x (by simp)
        have hxkey : x.key = .num x.entry.arrival_time := by
          rw [hkey x (by simp), orderingKey_of_not_truthy hts]
        rw [elemBelow_iff] at hcross
        rcases hcross with ⟨s1, s2, _, hk2, _⟩ | ⟨a1, a2, hk1, hk2, hc⟩
        · rw [hxkey] at hk2
          cases hk2
        · have hykey := hkey y (by simp [hy])
          rw [hk1] at hykey
          have hyarr : a1 = y.entry.arrival_time := orderingKey_num_arrival hykey.symm
          rw [hxkey] at hk2
          have ha2 : a2 = x.entry.arrival_time := (PyKey.num.inj hk2).symm
          rcases hc with hc | ⟨hc, _⟩
          · calc y.entry.arrival_time = a1 := hyarr.symm
              _ ≤ a2 := le_of_lt hc
              _ = x.entry.arrival_time := ha2
              _ ≤ now - s.max_delay := hage
          · calc y.entry.arrival_time = a1 := hyarr.symm
              _ = a2 := hc
              _ = x.entry.arrival_time := ha2
              _ ≤ now - s.max_delay := hage
      · right
        have : y = x := by simpa using hy
        rw [this]
        exact hage
    have hsplit' : s.buffer = (l1 ++ [x]) ++ l2 := by
      rw [hsplit]
      simp
    show x.entry ∈ (drainGo s.max_buffer s.max_delay now s.buffer).2
    rw [hsplit', drainGo_all_popped _ _ _ _ _ hall]
    exact List.mem_append_left _ (List.mem_map.mpr ⟨x, by simp, rfl⟩)

/-- Counterexample to C2 as stated: with `max_buffer = 1` and
`max_delay = 10`, two young untimestamped entries are ingested, so
the buffer size (2) exceeds `max_buffer`; the claim then promises
that a subsequent `drain()` returns each withheld entry, but the
drain at time 2 only force-pops the minimum element down to
`max_buffer` and returns `[entryU0]`; `entryU1` is not returned by
it, nor by further drains at times 3 and 4, even though the buffer
had exceeded its maximum. -/
theorem C2_untimestamped_withheld_counterexample :
    ingestAll [entryU0, entryU1] (initMerger 1 10) = .ok stateC2 ∧
    stateC2.buffer.length > stateC2.max_buffer ∧
    (drain 2 stateC2).1 = [entryU0] ∧
    entryU1 ∉ (drain 2 stateC2).1 ∧
    entryU1 ∉ (drainSeq [3, 4] (drain 2 stateC2).2).1 := by
  decide

/-- The C2 theorem applied to end-to-end scenario B: an entry with no
timestamp ingested at time t0 = 0 into a merger with max delay 2 is
withheld by a drain at time t0 + delay/2 = 1 and returned by a drain
at time t0 + delay*2 = 4. -/
theorem C2_untimestamped_withheld_witness :
    (drain 1 stateB).1 = [] ∧ entryU ∈ (drain 4 stateB).1 :=
  ⟨by decide,
   C2_untimestamped_withheld.2 stateB 4 ⟨.num 0, 1, entryU⟩
     ⟨by decide, by decide, by decide⟩ (by decide) (by decide) (by decide)⟩

/-! ## Claim C3 -/

/-- C3: `EventMerger.ingest` is not total.  When one ingested entry
carries a string timestamp (so its heap key is a `str`) and another
carries none (so its heap key is its float arrival time), the second
`heappush` compares the two keys and raises `TypeError` — in either
ingestion order.  This contradicts the module's own documentation
("Falls back to arrival time when timestamps are missing"; entries
without timestamps are held "in case a timestamped entry arrives that
should sort before them"), which requires both kinds to coexist in
the buffer. -/
theorem C3_ingest_mixed_key_raises :
    ingest entryT1 (initMerger 200 1) = .ok stateT ∧
    ingest entryU stateT = .error () ∧
    ingest entryU (initMerger 200 1) = .ok stateN ∧
    ingest entryT1 stateN = .error () := by
  decide

/-! ## Claim C4 -/

/-- Counterexample to C4 as stated: the heap tuples are
`(orderingKey, _seq, entry)` where `_seq` is EventMerger's own
per-ingest counter, not the entry's per-source-tail `seq` field.
After ingesting `entryS5` (tail sequence 5) and then `entryS1` (tail
sequence 1, equal timestamp), the buffer holds an element whose tag
differs from its entry's `seq`, and a drain emits the two
equal-timestamped entries in ingestion order — per-tail-sequence
keying would instead order `entryS1` (sequence 1) first. -/
theorem C4_buffer_keying_counterexample :
    ingestAll [entryS5, entryS1] (initMerger 200 1) = .ok stateC4 ∧
    entryS5.timestamp = entryS1.timestamp ∧
    entryS5.seq = 5 ∧ entryS1.seq = 1 ∧
    (∃ x ∈ stateC4.buffer, x.tag ≠ x.entry.seq) ∧
    (drain 10 stateC4).1 = [entryS5, entryS1] := by
  decide

/-- C4 (amended): every element of the EventMerger's priority buffer
is keyed by the pair `(orderingKey, c)` where `orderingKey` is the
entry's timestamp if present (and truthy) else its arrival time, and
`c` is the value of the merger's internal per-ingest counter at push
time — not the per-tail sequence carried by the entry.  The counter
values in the buffer are bounded by the current counter, the buffer
stays sorted by this key (so ties in `orderingKey` are broken by
ingestion order), and this keying is preserved by every successful
`ingest` and by every `drain` call. -/
theorem C4_buffer_keying :
    (∀ (mb : Nat) (md : ℤ), Inv (initMerger mb md)) ∧
    (∀ (e : LogEntry) (s s' : MergerState), Inv s → ingest e s = .ok s' →
      Inv s' ∧ s'.seqCounter = s.seqCounter + 1) ∧
    (∀ (now : ℤ) (s : MergerState), Inv s → Inv (drain now s).2) := by
  refine ⟨inv_init, ?_, fun now s hinv => inv_drain hinv⟩
  intro e s s' hinv h
  refine ⟨inv_ingest hinv h, ?_⟩
  rw [ingest] at h
  cases hbuf : bufInsert { key := orderingKey e, tag := s.seqCounter + 1, entry := e }
      s.buffer with
  | error err => rw [hbuf] at h; cases h
  | ok buf =>
    rw [hbuf] at h
    cases h
    rfl

/-- The C4 amended theorem applied to one concrete ingest: the state
holding one timestamped entry satisfies the keying invariant and its
counter advanced from 0 to 1. -/
theorem C4_buffer_keying_witness :
    Inv stateT ∧ stateT.seqCounter = 1 :=
  C4_buffer_keying.2.1 entryT1 (initMerger 200 1) stateT
    (C4_buffer_keying.1 200 1) (by decide)

/-! ## splitlines lemmas -/

theorem splitlinesGo_cons_clean {c : Char} (cs acc : List Char)
    (hc : isLineBreak c = false) :
    splitlinesGo (c :: cs) acc = splitlinesGo cs (c :: acc) := by
  have hcr : c ≠ '\r' := by
    intro h
    rw [h] at hc
    simp [isLineBreak] at hc
  rw [splitlinesGo.eq_def]
  split
  · rename_i heq
    simp at heq
  · rename_i rest3 heq
    rw [List.cons.injEq] at heq
    exact absurd heq.1 hcr
  · rename_i c3 rest3 hno heq
    rw [List.cons.injEq] at heq
    obtain ⟨h1, h2⟩ := heq
    subst h1
    subst h2
    rw [if_neg (by rw [hc]; exact Bool.false_ne_true)]

theorem splitlinesGo_cons_break {c : Char} (cs acc : List Char)
    (hb : isLineBreak c = true) (hcr : c ≠ '\r') :
    splitlinesGo (c :: cs) acc = acc.reverse :: splitlinesGo cs [] := by
  rw [splitlinesGo.eq_def]
  split
  · rename_i heq
    simp at heq
  · rename_i rest3 heq
    rw [List.cons.injEq] at heq
    exact absurd heq.1 hcr
  · rename_i c3 rest3 hno heq
    rw [List.cons.injEq] at heq
    obtain ⟨h1, h2⟩ := heq
    subst h1
    subst h2
    rw [if_pos hb]

/-- On a run of non-break characters the splitter just accumulates:
the result is the single line made of the accumulator and the run
(when nonempty). -/
theorem splitlinesGo_clean (cs : List Char)
    (h : ∀ c ∈ cs, isLineBreak c = false) :
    ∀ acc, splitlinesGo cs acc =
      if (acc.reverse ++ cs).isEmpty then [] else [acc.reverse ++ cs] := by
  induction cs with
  | nil =>
    intro acc
    rw [splitlinesGo]
    simp
  | cons c cs ih =>
    intro acc
    rw [splitlinesGo_cons_clean cs acc (h c (by simp)),
      ih (fun z hz => h z (by simp [hz]))]
    simp

/-- A run of non-break characters ended by a newline splits into
exactly one line. -/
theorem splitlinesGo_clean_newline (cs : List Char)
    (h : ∀ c ∈ cs, isLineBreak c = false) :
    ∀ acc, splitlinesGo (cs ++ ['\n']) acc = [acc.reverse ++ cs] := by
  induction cs with
  | nil =>
    intro acc
    rw [List.nil_append,
      splitlinesGo_cons_break [] acc (by simp [isLineBreak]) (by decide)]
    rw [splitlinesGo]
    simp
  | cons c cs ih =>
    intro acc
    rw [List.cons_append, splitlinesGo_cons_clean _ acc (h c (by simp)),
      ih (fun z hz => h z (by simp [hz]))]
    simp

/-- A nonempty string of non-break characters splits into itself. -/
theorem splitlines_clean {b : String} (hb : b ≠ "")
    (h : ∀ c ∈ b.data, isLineBreak c = false) :
    splitlines b = [b] := by
  rw [splitlines, splitlinesGo_clean b.data h []]
  have hne : (([] : List Char).reverse ++ b.data).isEmpty = false := by
    simp only [List.reverse_nil, List.nil_append]
    cases hd : b.data with
    | nil =>
      exact absurd (String.ext hd) hb
    | cons c cs => rfl
  rw [hne]
  simp only [Bool.false_eq_true, if_false, List.reverse_nil, List.nil_append,
    List.map_cons, List.map_nil]
  rfl

/-- A string of non-break characters ended by a newline splits into
one line holding exactly those characters. -/
theorem splitlines_clean_newline {b : String}
    (h : ∀ c ∈ b.data, isLineBreak c = false) :
    splitlines (b ++ "\n") = [b] := by
  have hdata : (b ++ "\n").data = b.data ++ ['\n'] := rfl
  rw [splitlines, hdata, splitlinesGo_clean_newline b.data h []]
  simp only [List.reverse_nil, List.nil_append, List.map_cons, List.map_nil]
  rfl

/-- A string of non-break characters does not end with a newline. -/
theorem endsWithNewline_clean {b : String}
    (h : ∀ c ∈ b.data, isLineBreak c = false) :
    endsWithNewline b = false := by
  rw [endsWithNewline]
  cases hl : b.data.getLast? with
  | none => rfl
  | some c =>
    have hmem : c ∈ b.data := List.mem_of_mem_getLast? (by rw [hl]; rfl)
    have := h c hmem
    rw [decide_eq_false_iff_not]
    intro hcn
    rw [Option.some.inj hcn] at this
    simp [isLineBreak] at this

/-- A string ended by a newline ends with a newline. -/
theorem endsWithNewline_append_newline (b : String) :
    endsWithNewline (b ++ "\n") = true := by
  rw [endsWithNewline]
  have hdata : (b ++ "\n").data = b.data ++ ['\n'] := rfl
  rw [hdata, List.getLast?_concat]
  rfl

/-! ## Claim C5 -/

/-- C5: if the size observed at a poll is strictly smaller than the
stored read offset, `_read_new_lines` behaves exactly as on a tail
whose offset is zero and whose buffered fragment is empty: the offset
is reset, the partial line is discarded, and the bytes returned by
that same poll are read starting from offset zero of the new
content. -/
theorem C5_truncation_resets (content : String) (r : Bool) (st : TailState)
    (h : content.data.length < st.offset) :
    readNewLines (.present content r) st =
      readNewLines (.present content r) { st with offset := 0, partialBuf := "" } := by
  simp only [readNewLines]
  rw [if_pos h]
  rw [if_neg (show ¬ content.data.length <
    ({ st with offset := 0, partialBuf := "" } : TailState).offset by simp)]

/-- The C5 theorem applied to a tail at offset 5 with fragment "ab"
observing the 3-character content "xy\n": the poll equals a
from-scratch poll, which returns ["xy"] read from offset zero. -/
theorem C5_truncation_resets_witness :
    readNewLines (.present "xy\n" true) ⟨"job-1", "heightmap", 5, "ab", 3⟩ =
      readNewLines (.present "xy\n" true) ⟨"job-1", "heightmap", 0, "", 3⟩ ∧
    readNewLines (.present "xy\n" true) ⟨"job-1", "heightmap", 0, "", 3⟩ =
      .ok (["xy"], ⟨"job-1", "heightmap", 3, "", 3⟩) :=
  ⟨C5_truncation_resets "xy\n" true ⟨"job-1", "heightmap", 5, "ab", 3⟩ (by decide),
   by decide⟩

/-! ## Claim C6 -/

/-- C6: a trailing byte sequence `b` not ended by a line terminator is
not emitted by the poll that reads it — it is buffered as the partial
line — and when a later poll reads the bytes `d ++ "\n"` completing
that line, exactly one line is produced for the combined text
`b ++ d` (not two partial lines, no duplicate). -/
theorem C6_unterminated_fragment (j s : String) (q : Nat) (b d : String)
    (hb : b ≠ "")
    (hnb : ∀ c ∈ b.data, isLineBreak c = false)
    (hnd : ∀ c ∈ d.data, isLineBreak c = false) :
    readNewLines (.present b true) ⟨j, s, 0, "", q⟩ =
      .ok ([], ⟨j, s, b.data.length, b, q⟩) ∧
    readNewLines (.present (b ++ d ++ "\n") true) ⟨j, s, b.data.length, b, q⟩ =
      .ok ([b ++ d], ⟨j, s, (b ++ d ++ "\n").data.length, "", q⟩) := by
  have hlen : b.data.length ≠ 0 := by
    intro hl
    exact hb (String.ext (List.length_eq_zero.mp hl))
  constructor
  · simp only [readNewLines]
    rw [if_neg (show ¬ b.data.length < (⟨j, s, 0, "", q⟩ : TailState).offset by simp)]
    rw [if_neg (by simpa using hlen)]
    have hdrop : b.data.drop (⟨j, s, 0, "", q⟩ : TailState).offset = b.data := by simp
    rw [hdrop]
    have htext : ((⟨j, s, 0, "", q⟩ : TailState).partialBuf ++ List.asString b.data) = b :=
      String.ext rfl
    rw [htext, splitlines_clean hb hnb, endsWithNewline_clean hnb]
    simp
  · have hdata : (b ++ d ++ "\n").data = (b.data ++ d.data) ++ ['\n'] := rfl
    have hsize : (b ++ d ++ "\n").data.length = b.data.length + d.data.length + 1 := by
      rw [hdata]
      simp
      omega
    simp only [readNewLines]
    rw [if_neg (show ¬ (b ++ d ++ "\n").data.length <
        (⟨j, s, b.data.length, b, q⟩ : TailState).offset by
      simp only [hsize]
      omega)]
    rw [if_neg (show ¬ (b ++ d ++ "\n").data.length =
        (⟨j, s, b.data.length, b, q⟩ : TailState).offset by
      simp only [hsize]
      omega)]
    have hdrop : (b ++ d ++ "\n").data.drop (⟨j, s, b.data.length, b, q⟩ : TailState).offset =
        d.data ++ ['\n'] := by
      rw [hdata]
      dsimp only
      rw [List.append_assoc, List.drop_left]
    rw [hdrop]
    have htext : ((⟨j, s, b.data.length, b, q⟩ : TailState).partialBuf ++
        List.asString (d.data ++ ['\n'])) = (b ++ d) ++ "\n" := by
      apply String.ext
      show b.data ++ (d.data ++ ['\n']) = (b.data ++ d.data) ++ ['\n']
      rw [List.append_assoc]
    rw [htext]
    have hbd : ∀ c ∈ (b ++ d).data, isLineBreak c = false := by
      intro c hc
      rcases List.mem_append.mp hc with hc | hc
      · exact hnb c hc
      · exact hnd c hc
    rw [splitlines_clean_newline hbd, endsWithNewline_append_newline]
    rfl

/-- The C6 theorem applied to the fragment "hel" completed by
"lo\n". -/
theorem C6_unterminated_fragment_witness :
    readNewLines (.present "hel" true) ⟨"job-1", "tiler", 0, "", 0⟩ =
      .ok ([], ⟨"job-1", "tiler", 3, "hel", 0⟩) ∧
    readNewLines (.present ("hel" ++ "lo" ++ "\n") true) ⟨"job-1", "tiler", 3, "hel", 0⟩ =
      .ok (["hel" ++ "lo"], ⟨"job-1", "tiler", 6, "", 0⟩) :=
  C6_unterminated_fragment "job-1" "tiler" 0 "hel" "lo" (by decide) (by decide)
    (by decide)

/-! ## Claim C7 -/

/-- Counterexample to C7 as stated: `_read_new_lines` contains no
exception handler, so a transient read failure on an existing file
(the open raising `OSError`, e.g. a permission error) propagates out
of `poll` instead of yielding an empty result — here on a fresh tail
observing an existing but unreadable 2-character file. -/
theorem C7_poll_unreadable_raises_counterexample :
    readNewLines (.present "x\n" false) ⟨"job-1", "weather", 0, "", 0⟩ =
      .error .osError := by
  decide

/-- C7 (amended): the only failure `poll` tolerates is the file not
existing — `_read_new_lines` returns no lines and leaves the offset,
partial-line buffer and sequence counter unchanged, and
`PlainTextTail.poll` likewise returns no entries with the whole tail
state unchanged.  An `OSError` from reading an existing file is not
caught and propagates (see the counterexample). -/
theorem C7_poll_absent_keeps_state :
    (∀ st : TailState, readNewLines .absent st = .ok ([], st)) ∧
    (∀ (w : Char → Bool) (st : TailState) (now : ℤ),
      plainTextPoll w .absent now st = .ok ([], st)) := by
  constructor
  · intro st
    rfl
  · intro w st now
    rfl

/-! ## Claim C8 -/

/-- A poll on a fresh tail whose new content is one clean line ended
by a newline returns exactly that line. -/
theorem readNewLines_fresh_line (j s line : String) (q : Nat)
    (hclean : ∀ c ∈ line.data, isLineBreak c = false) :
    readNewLines (.present (line ++ "\n") true) ⟨j, s, 0, "", q⟩ =
      .ok ([line], ⟨j, s, (line ++ "\n").data.length, "", q⟩) := by
  have hdata : (line ++ "\n").data = line.data ++ ['\n'] := rfl
  have hsize : (line ++ "\n").data.length = line.data.length + 1 := by
    rw [hdata]
    simp
  simp only [readNewLines]
  rw [if_neg (show ¬ (line ++ "\n").data.length <
      (⟨j, s, 0, "", q⟩ : TailState).offset by simp)]
  rw [if_neg (show ¬ (line ++ "\n").data.length =
      (⟨j, s, 0, "", q⟩ : TailState).offset by
    simp only [hsize]
    simp)]
  have hdrop : (line ++ "\n").data.drop (⟨j, s, 0, "", q⟩ : TailState).offset =
      (line ++ "\n").data := by simp
  rw [hdrop]
  have htext : ((⟨j, s, 0, "", q⟩ : TailState).partialBuf ++
      List.asString (line ++ "\n").data) = line ++ "\n" := String.ext rfl
  rw [htext, splitlines_clean_newline hclean, endsWithNewline_append_newline]
  rfl

/-- C8: every complete plain-text line matching `LINE_PATTERN` yields
exactly one entry whose job id, stage, timestamp, level and message
come from the matched groups — overriding the tail's configured
defaults `j` and `s` — with no event, the raw line object as `raw`,
the poll's monotonic time as arrival time, and the next per-tail
sequence number.  The theorem quantifies over every interpretation
`w` of `\w`, so it holds in particular for the interpreter's actual
Unicode-aware word-character predicate. -/
theorem C8_plain_line_parsing (w : Char → Bool) (j s : String) (q : Nat) (now : ℤ)
    (line : String) (g : PlainGroups)
    (hparse : plainLineMatch w line = some g)
    (hclean : ∀ c ∈ line.data, isLineBreak c = false) :
    plainTextPoll w (.present (line ++ "\n") true) now ⟨j, s, 0, "", q⟩ =
      .ok ([{ job_id := g.job_id, stage := g.stage, timestamp := some g.ts,
              level := some g.level, event := none, message := some g.msg,
              raw := .ofLine line, arrival_time := now, seq := q + 1 }],
        ⟨j, s, (line ++ "\n").data.length, "", q + 1⟩) := by
  rw [plainTextPoll, readNewLines_fresh_line j s line q hclean]
  simp only [plainBuildEntries, hparse]

/-- The C8 theorem applied to end-to-end scenario D: the line
`2024-01-15T12:00:00Z [job=abc] [stage=heightmap] INFO hello` parses
to an entry with source "heightmap", level "INFO", message "hello"
and timestamp "2024-01-15T12:00:00Z", overriding the tail defaults.
The line is ASCII, so `\w` is instantiated by its ASCII fragment
`pyWordASCII`, on which it agrees with the interpreter. -/
theorem C8_plain_line_parsing_witness :
    plainTextPoll pyWordASCII
        (.present ("2024-01-15T12:00:00Z [job=abc] [stage=heightmap] INFO hello" ++ "\n")
          true) 7 ⟨"default-job", "mapgenctl", 0, "", 0⟩ =
      .ok ([{ job_id := "abc", stage := "heightmap",
              timestamp := some "2024-01-15T12:00:00Z", level := some "INFO",
              event := none, message := some "hello",
              raw := .ofLine "2024-01-15T12:00:00Z [job=abc] [stage=heightmap] INFO hello",
              arrival_time := 7, seq := 1 }],
        ⟨"default-job", "mapgenctl",
          ("2024-01-15T12:00:00Z [job=abc] [stage=heightmap] INFO hello" ++ "\n").data.length,
          "", 1⟩) :=
  C8_plain_line_parsing pyWordASCII "default-job" "mapgenctl" 0 7
    "2024-01-15T12:00:00Z [job=abc] [stage=heightmap] INFO hello"
    ⟨"2024-01-15T12:00:00Z", "abc", "heightmap", "INFO", "hello"⟩
    (by decide) (by decide)

/-! ## Claim C9 -/

/-- C9: `TailManager.tick` forwarding is non-blocking and lossy under
pressure.  Every polled entry is attempted in order and the loop
never raises out of the tick (the `try/except: pass` around
`put_nowait` makes `tickForward` total); with a bounded channel of
positive capacity, exactly the entries that fit are appended in
order and the rest are dropped: the resulting channel holds the old
items followed by the longest prefix of the new entries that fits. -/
theorem C9_forward_drop_on_full :
    ∀ (es : List LogEntry) (bq : BoundedQueue), 0 < bq.maxsize →
      tickForward bq es =
        { items := bq.items ++ es.take (bq.maxsize - bq.items.length),
          maxsize := bq.maxsize } := by
  intro es
  induction es with
  | nil =>
    intro bq _
    simp only [tickForward, List.take_nil, List.append_nil]
  | cons e rest ih =>
    intro bq hpos
    by_cases hfull : bq.maxsize ≤ bq.items.length
    · have hput : putNowait bq e = .error () := by
        rw [putNowait, if_pos ⟨hpos, hfull⟩]
      rw [tickForward, hput, ih bq hpos]
      have h0 : bq.maxsize - bq.items.length = 0 := by omega
      rw [h0]
      simp
    · have hput : putNowait bq e = .ok { bq with items := bq.items ++ [e] } := by
        rw [putNowait, if_neg (by push_neg; intro _; omega)]
      simp only [tickForward, hput]
      rw [ih { bq with items := bq.items ++ [e] } (by simpa using hpos)]
      have hk : bq.maxsize - bq.items.length = (bq.maxsize - (bq.items.length + 1)) + 1 := by
        omega
      simp only [List.length_append, List.length_cons, List.length_nil]
      rw [hk, List.take_succ_cons]
      simp

/-- The C9 theorem applied to a channel of capacity 2 already holding
one entry, forwarded two new entries: the first fits, the second is
dropped. -/
theorem C9_forward_drop_on_full_witness :
    tickForward ⟨[entryU0], 2⟩ [entryU1, entryT1] = ⟨[entryU0, entryU1], 2⟩ :=
  C9_forward_drop_on_full [entryU1, entryT1] ⟨[entryU0], 2⟩ (by decide)

/-! ## Claim C10 -/

/-- Counterexample to C10 as stated: `paths.stage_dir` is one of the
two cited path-resolution functions, and for the unmapped ASCII name
"foo" it does not abort — it is a total function returning the
degraded fallback path built from `"foo".capitalize()` = "Foo"
(`pyCapitalizeASCII` agrees with the interpreter on this ASCII
input). -/
theorem C10_stage_dir_fallback_counterexample :
    STAGE_DIRECTORY_MAP.lookup "foo" = none ∧
    stage_dir pyCapitalizeASCII "/repo" "foo" = "/repo/MapGenerator/Foo" := by
  constructor
  · decide
  · rfl

/-- C10 (amended): for every mapped pipeline stage both resolvers
return the mapped directory's path (for any interpretation of
`str.capitalize`, which the mapped case never consults); for an
unmapped name `cli.resolved_stage_outbox` raises `KeyError` while
`paths.stage_dir` does not raise and instead returns the fallback
path built from the capitalized stage name — again for every
interpretation of `str.capitalize`, the interpreter's included. -/
theorem C10_path_resolution :
    (∀ (cap : String → String) (stage dir : String),
      STAGE_DIRECTORY_MAP.lookup stage = some dir →
      resolved_stage_outbox stage =
        .ok ("~/Code/RTSColonyTerrainGenerator/MapGenerator/" ++ dir ++ "/outbox") ∧
      (∀ root, stage_dir cap root stage = root ++ "/MapGenerator/" ++ dir)) ∧
    (∀ (cap : String → String) (stage : String),
      STAGE_DIRECTORY_MAP.lookup stage = none →
      resolved_stage_outbox stage = .error () ∧
      (∀ root, stage_dir cap root stage =
        root ++ "/MapGenerator/" ++ cap stage)) := by
  constructor
  · intro cap stage dir h
    constructor
    · rw [resolved_stage_outbox, h]
    · intro root
      rw [stage_dir, h]
      rfl
  · intro cap stage h
    constructor
    · rw [resolved_stage_outbox, h]
    · intro root
      rw [stage_dir, h]
      rfl

/-- The C10 theorem applied to the mapped stage "weather" and the
unmapped name "mapgenctl" (the orchestrator's own source name). -/
theorem C10_path_resolution_witness :
    resolved_stage_outbox "weather" =
      .ok ("~/Code/RTSColonyTerrainGenerator/MapGenerator/" ++ "WeatherAnalyses" ++
        "/outbox") ∧
    resolved_stage_outbox "mapgenctl" = .error () ∧
    stage_dir pyCapitalizeASCII "/repo" "mapgenctl" = "/repo/MapGenerator/Mapgenctl" :=
  ⟨(C10_path_resolution.1 pyCapitalizeASCII "weather" "WeatherAnalyses" (by decide)).1,
   (C10_path_resolution.2 pyCapitalizeASCII "mapgenctl" (by decide)).1,
   ((C10_path_resolution.2 pyCapitalizeASCII "mapgenctl" (by decide)).2 "/repo")⟩

end MapGenCtl
